import Mathlib

/-!
Shallow embedding of the `ledger` package: a versioned key-value map facade
(`ledger.go`) over a history tracker (`history.go`) and an external backing
structure (the sparse merkle tree), together with proofs about the package's
documented behaviour.

Go byte slices and Go strings are both arbitrary byte sequences; they are
modelled as `List Nat`.  The backing structure, the key digest function and
the key reversal cache are external collaborators of the two source files;
they are modelled from the spec's collaborator contract as explicit
parameters, so every theorem quantifies over their behaviour.
-/

/-- Go byte slices, modelled as lists of naturals (bytes in real executions). -/
abbrev Bytes := List Nat

/-- Go strings are byte sequences; modelled identically to byte slices. -/
abbrev GoStr := List Nat

/-- One character of the standard base64 alphabet, as a byte value:
`A..Z a..z 0..9 + /` for the six-bit values `0..63`. -/
def b64Char (i : Nat) : Nat :=
  if i < 26 then 65 + i
  else if i < 52 then 97 + (i - 26)
  else if i < 62 then 48 + (i - 52)
  else if i = 62 then 43
  else 47

/-- Inverse base64 alphabet lookup: byte value of a character to its six-bit
value, `none` for characters outside the alphabet (including the pad `=`). -/
def b64Index (c : Nat) : Option Nat :=
  if 65 ≤ c ∧ c ≤ 90 then some (c - 65)
  else if 97 ≤ c ∧ c ≤ 122 then some (c - 97 + 26)
  else if 48 ≤ c ∧ c ≤ 57 then some (c - 48 + 52)
  else if c = 43 then some 62
  else if c = 47 then some 63
  else none

/-- Modelled from the spec: root-hash external encoding is standard base64
text (Go `base64.StdEncoding.EncodeToString`), with `=` (byte 61) padding. -/
def base64Encode : Bytes → GoStr
  | [] => []
  | [b1] => [b64Char (b1 / 4), b64Char (b1 % 4 * 16), 61, 61]
  | [b1, b2] => [b64Char (b1 / 4), b64Char (b1 % 4 * 16 + b2 / 16), b64Char (b2 % 16 * 4), 61]
  | b1 :: b2 :: b3 :: rest =>
      b64Char (b1 / 4) :: b64Char (b1 % 4 * 16 + b2 / 16) ::
        b64Char (b2 % 16 * 4 + b3 / 64) :: b64Char (b3 % 64) :: base64Encode rest

/-- Decoding loop over four-character quanta, after newline characters have
been dropped.  The final quantum may carry one or two `=` pads; a pad
anywhere else, a character outside the alphabet, or a trailing fragment
shorter than four characters is an error. -/
def b64DecodeAux : GoStr → Except Unit Bytes
  | [] => .ok []
  | c1 :: c2 :: c3 :: c4 :: rest =>
      match b64Index c1, b64Index c2 with
      | some v1, some v2 =>
          if c3 = 61 then
            if c4 = 61 ∧ rest = [] then .ok [v1 * 4 + v2 / 16] else .error ()
          else
            match b64Index c3 with
            | some v3 =>
                if c4 = 61 then
                  if rest = [] then .ok [v1 * 4 + v2 / 16, v2 % 16 * 16 + v3 / 4]
                  else .error ()
                else
                  match b64Index c4 with
                  | some v4 =>
                      match b64DecodeAux rest with
                      | .ok bs => .ok ((v1 * 4 + v2 / 16) :: (v2 % 16 * 16 + v3 / 4) ::
                          (v3 % 4 * 64 + v4) :: bs)
                      | .error e => .error e
                  | none => .error ()
            | none => .error ()
      | _, _ => .error ()
  | _ => .error ()

/-- Modelled from the spec: Go `base64.StdEncoding.DecodeString`.  The Go
decoder skips carriage returns and newlines, then consumes four-character
quanta. -/
def base64Decode (s : GoStr) : Except Unit Bytes :=
  b64DecodeAux (s.filter (fun c => c != 10 && c != 13))

/-- Source `hashToString`: encode raw root bytes as base64 text. -/
def hashToString (h : Bytes) : GoStr :=
  base64Encode h

/-- Source `stringToBytes`: a Go string is already its byte sequence here. -/
def stringToBytes (val : GoStr) : Bytes :=
  val

/-- Source `trimLeadingZeroes`.  The Go loop `for i = range in` leaves `i`
at the last index when no nonzero byte is found, so a nonempty all-zero
slice keeps its final zero byte. -/
def trimLeadingZeroes : Bytes → Bytes
  | [] => []
  | [b] => [b]
  | b :: rest => if b ≠ 0 then b :: rest else trimLeadingZeroes rest

/-- Source `var h hash; copy(h[:], b)`: the first eight bytes of `b`,
zero-padded on the right up to width eight. -/
def toHash (b : Bytes) : Bytes :=
  b.take 8 ++ List.replicate (8 - b.length) 0

/-- Error outcomes distinguished by the ledger facade. -/
inductive LErr where
  | notFound (rootHash : GoStr)
  | invalidOp
  | decodeErr
  | backing (e : Nat)
  | keyReversalMiss (key : Bytes)
deriving DecidableEq

/-- Modelled from the spec: the backing structure collaborator contract
(`Update`, `Delete`, `GetPreviousValue`, `GetAllPrevious`, `Erase`, `Root`),
over an abstract tree state type.  Failures are opaque error codes. -/
structure SMTOps (σ : Type) where
  update : σ → List Bytes → List Bytes → Except Nat (Bytes × σ)
  delete : σ → Bytes → Except Nat (Bytes × σ)
  getPreviousValue : σ → Bytes → Bytes → Bytes × Option Nat
  getAllPrevious : σ → Bytes → List Bytes × List Bytes × Option Nat
  erase : σ → Bytes → List Bytes → Except Nat σ
  root : σ → Bytes

/-- Modelled from the spec: laws the backing structure contract implies.
A successful `Update` or `Delete` makes `Root` report the returned root, and
`Erase` reclaims only historical state, leaving the current root unchanged. -/
structure SMTLaws {σ : Type} (ops : SMTOps σ) : Prop where
  rootUpdate : ∀ t ks vs b t', ops.update t ks vs = .ok (b, t') → ops.root t' = b
  rootDelete : ∀ t k b t', ops.delete t k = .ok (b, t') → ops.root t' = b
  rootErase : ∀ t tgt adj t', ops.erase t tgt adj = .ok t' → ops.root t' = ops.root t

/-- Modelled from the spec: the key reversal cache `Get` capability, over an
association-list cache state (the bounded eviction policy is external, so
theorems quantify over the cache contents instead). -/
def cacheGet : List (Bytes × List Bytes) → Bytes → Option (List Bytes)
  | [], _ => none
  | p :: rest, h => if p.1 = h then some p.2 else cacheGet rest h

/-- Modelled from the spec: the key reversal cache `Set` capability,
overwriting any existing slot for the digest. -/
def cacheSet : List (Bytes × List Bytes) → Bytes → List Bytes → List (Bytes × List Bytes)
  | [], h, v => [(h, v)]
  | (h', v') :: rest, h, v =>
      if h' = h then (h', v) :: rest else (h', v') :: cacheSet rest h v

/-- Lookup in the history index, modelling Go map access where present. -/
def alistLookup : List (GoStr × List Nat) → GoStr → Option (List Nat)
  | [], _ => none
  | p :: rest, k => if p.1 = k then some p.2 else alistLookup rest k

/-- Source `h.index[k] = append(h.index[k], id)`: extend the slot for `k`,
creating it when absent. -/
def alistAppendSlot : List (GoStr × List Nat) → GoStr → Nat → List (GoStr × List Nat)
  | [], k, id => [(k, [id])]
  | (k', l) :: rest, k, id =>
      if k' = k then (k', l ++ [id]) :: rest else (k', l) :: alistAppendSlot rest k id

/-- Source `delete(h.index, k)`: drop the slot for `k` entirely. -/
def alistRemove : List (GoStr × List Nat) → GoStr → List (GoStr × List Nat)
  | [], _ => []
  | p :: rest, k => if p.1 = k then alistRemove rest k else p :: alistRemove rest k

/-- Source `history` struct: the doubly linked `list.List` of raw root bytes
is modelled as an arena of entries addressed by stable integer handles in
sequence order, plus the index from encoded hash to entry handles. -/
structure History where
  entries : List (Nat × Bytes)
  index : List (GoStr × List Nat)
  nextId : Nat
deriving DecidableEq

/-- Source `newHistory`. -/
def newHistory : History :=
  ⟨[], [], 0⟩

/-- Source `history.Get`: the slot for the hash, or the empty sequence. -/
def historyGet (h : History) (hash : GoStr) : List Nat :=
  (alistLookup h.index hash).getD []

/-- Source `history.Put`: push a tail entry holding the raw root bytes and
append its handle to the encoded hash's index slot. -/
def historyPut (h : History) (key : Bytes) : History × Nat × GoStr :=
  let encodedKey := hashToString key
  (⟨h.entries ++ [(h.nextId, key)],
    alistAppendSlot h.index encodedKey h.nextId,
    h.nextId + 1⟩, h.nextId, encodedKey)

/-- Source `history.Delete`: drop the hash's index slot. -/
def historyDelete (h : History) (key : GoStr) : History :=
  { h with index := alistRemove h.index key }

/-- Source `h.List.Remove(o)`: unlink the entry with the given handle from
the sequence (handles are unique by construction). -/
def historyRemove (h : History) (id : Nat) : History :=
  { h with entries := h.entries.filter (fun e => e.1 != id) }

/-- Value carried by a sequence entry, Go `o.Value.([]byte)`. -/
def elemValue : List (Nat × Bytes) → Nat → Option Bytes
  | [], _ => none
  | e :: rest, id => if e.1 = id then some e.2 else elemValue rest id

/-- Successor handle in the sequence, Go `o.Next()`; `none` at the tail. -/
def elemNext : List (Nat × Bytes) → Nat → Option Nat
  | [], _ => none
  | [_], _ => none
  | e1 :: e2 :: t, id => if e1.1 = id then some e2.1 else elemNext (e2 :: t) id

/-- Predecessor handle in the sequence, Go `o.Prev()`; `none` at the head. -/
def elemPrev : List (Nat × Bytes) → Nat → Option Nat
  | [], _ => none
  | [_], _ => none
  | e1 :: e2 :: t, id => if e2.1 = id then some e1.1 else elemPrev (e2 :: t) id

/-- Source `smtLedger` struct state: the backing tree, the history tracker
and the key reversal cache.  The unused `firstObserved` field is omitted. -/
structure LedgerState (σ : Type) where
  tree : σ
  history : History
  keyCache : List (Bytes × List Bytes)

/-- Source `Make` inner state: fresh tree state, empty history, empty cache. -/
def initLedger {σ : Type} (t0 : σ) : LedgerState σ :=
  ⟨t0, newHistory, []⟩

/-- Source `coerceKeyToHashLen`: digest the key (the digest function `kh`
models the murmur3 sum), record the reversal in the cache, return the digest. -/
def coerceKeyToHashLen {σ : Type} (kh : GoStr → Bytes) (st : LedgerState σ) (val : GoStr) :
    Bytes × LedgerState σ :=
  let result := kh val
  (result, { st with keyCache := cacheSet st.keyCache (toHash result) [stringToBytes val] })

/-- Source `smtLedger.RootHash`: base64 text of the tree's current root. -/
def ledgerRootHash {σ : Type} (ops : SMTOps σ) (st : LedgerState σ) : GoStr :=
  hashToString (ops.root st.tree)

/-- Source `smtLedger.Put`: digest the key, update the tree, record the new
root in history, return its encoded hash. -/
def ledgerPut {σ : Type} (ops : SMTOps σ) (kh : GoStr → Bytes) (st : LedgerState σ)
    (key value : GoStr) : Except LErr GoStr × LedgerState σ :=
  let p := coerceKeyToHashLen kh st key
  match ops.update p.2.tree [p.1] [stringToBytes value] with
  | .error e => (.error (.backing e), p.2)
  | .ok (b, t') =>
      let q := historyPut p.2.history b
      (.ok q.2.2, { p.2 with tree := t', history := q.1 })

/-- Source `smtLedger.Delete`: digest the key, delete from the tree, record
the new root in history, return its encoded hash. -/
def ledgerDelete {σ : Type} (ops : SMTOps σ) (kh : GoStr → Bytes) (st : LedgerState σ)
    (key : GoStr) : Except LErr GoStr × LedgerState σ :=
  let p := coerceKeyToHashLen kh st key
  match ops.delete p.2.tree p.1 with
  | .error e => (.error (.backing e), p.2)
  | .ok (b, t') =>
      let q := historyPut p.2.history b
      (.ok q.2.2, { p.2 with tree := t', history := q.1 })

/-- Source `smtLedger.GetPreviousValue`: decode the root text, digest the
key (recording the reversal), query the tree, and trim leading zero padding
from whatever bytes came back, even alongside an error. -/
def ledgerGetPreviousValue {σ : Type} (ops : SMTOps σ) (kh : GoStr → Bytes)
    (st : LedgerState σ) (previousRootHash key : GoStr) :
    (GoStr × Option LErr) × LedgerState σ :=
  match base64Decode previousRootHash with
  | .error _ => (([], some .decodeErr), st)
  | .ok prevBytes =>
      let p := coerceKeyToHashLen kh st key
      let r := ops.getPreviousValue p.2.tree prevBytes p.1
      ((trimLeadingZeroes r.1, r.2.map .backing), p.2)

/-- Source `smtLedger.Get`: a previous-value read at the current root hash. -/
def ledgerGet {σ : Type} (ops : SMTOps σ) (kh : GoStr → Bytes) (st : LedgerState σ)
    (key : GoStr) : (GoStr × Option LErr) × LedgerState σ :=
  ledgerGetPreviousValue ops kh st (ledgerRootHash ops st) key

/-- Loop body of `EraseRootHash`: for each occurrence require a successor,
and collect predecessor and successor root bytes as the bracketing pairs. -/
def eraseLoop (l : List (Nat × Bytes)) : List Nat → List Bytes → Except Unit (List Bytes)
  | [], acc => .ok acc
  | o :: rest, acc =>
      match elemNext l o with
      | none => .error ()
      | some nxt =>
          let prevVal : Bytes :=
            match elemPrev l o with
            | none => []
            | some p => (elemValue l p).getD []
          eraseLoop l rest (acc ++ [prevVal, (elemValue l nxt).getD []])

/-- Source `smtLedger.EraseRootHash`: look up all occurrences of the hash,
require each to have a successor, delegate to the tree's erase with the
bracketing roots, then prune every occurrence and drop the index slot.  Any
failure leaves the state untouched. -/
def eraseRootHash {σ : Type} (ops : SMTOps σ) (st : LedgerState σ) (rootHash : GoStr) :
    Option LErr × LedgerState σ :=
  match historyGet st.history rootHash with
  | [] => (some (.notFound rootHash), st)
  | o0 :: rest =>
      match eraseLoop st.history.entries (o0 :: rest) [] with
      | .error _ => (some .invalidOp, st)
      | .ok adjacentRoots =>
          match ops.erase st.tree ((elemValue st.history.entries o0).getD []) adjacentRoots with
          | .error e => (some (.backing e), st)
          | .ok t' =>
              let h1 := (o0 :: rest).foldl historyRemove st.history
              (none, { st with tree := t', history := historyDelete h1 rootHash })

/-- Go map insertion for the snapshot result map. -/
def mapSet (m : GoStr → Option GoStr) (k v : GoStr) : GoStr → Option GoStr :=
  fun k' => if k' = k then some v else m k'

/-- Loop of `GetAllPrevious`: reverse each key digest through the cache; a
hit inserts the trimmed key and value, a miss appends one aggregated error
naming the digest. -/
def gapLoop (kc : List (Bytes × List Bytes)) :
    List Bytes → List Bytes → (GoStr → Option GoStr) → List LErr →
      (GoStr → Option GoStr) × List LErr
  | [], _, m, es => (m, es)
  | k :: ks, vs, m, es =>
      match cacheGet kc (toHash k) with
      | some truekey =>
          gapLoop kc ks vs.tail
            (mapSet m (trimLeadingZeroes (truekey.headD [])) (trimLeadingZeroes (vs.headD [])))
            es
      | none => gapLoop kc ks vs.tail m (es ++ [.keyReversalMiss k])

/-- Source `smtLedger.GetAllPrevious`: decode the root text, fetch the full
snapshot from the tree, and reverse every key through the cache, collecting
misses (and any tree error) into the aggregated error list.  Only a decode
failure yields a nil map. -/
def ledgerGetAllPrevious {σ : Type} (ops : SMTOps σ) (st : LedgerState σ) (prevRoot : GoStr) :
    (Option (GoStr → Option GoStr) × List LErr) × LedgerState σ :=
  match base64Decode prevRoot with
  | .error _ => ((none, [.decodeErr]), st)
  | .ok prevBytes =>
      match ops.getAllPrevious st.tree prevBytes with
      | (keys, values, treeErr) =>
          let initErrs : List LErr :=
            match treeErr with
            | none => []
            | some e => [.backing e]
          let r := gapLoop st.keyCache keys values (fun _ => none) initErrs
          ((some r.1, r.2), st)

/-- Source `smtLedger.GetAll`: the full snapshot at the current root hash. -/
def ledgerGetAll {σ : Type} (ops : SMTOps σ) (st : LedgerState σ) :
    (Option (GoStr → Option GoStr) × List LErr) × LedgerState σ :=
  ledgerGetAllPrevious ops st (ledgerRootHash ops st)

/-- States of one ledger reachable from creation by Put, Delete and
EraseRootHash calls (the three operations that touch the history tracker). -/
inductive Reachable {σ : Type} (ops : SMTOps σ) (kh : GoStr → Bytes) (t0 : σ) :
    LedgerState σ → Prop where
  | init : Reachable ops kh t0 (initLedger t0)
  | put (st : LedgerState σ) (k v : GoStr) :
      Reachable ops kh t0 st → Reachable ops kh t0 (ledgerPut ops kh st k v).2
  | del (st : LedgerState σ) (k : GoStr) :
      Reachable ops kh t0 st → Reachable ops kh t0 (ledgerDelete ops kh st k).2
  | erase (st : LedgerState σ) (rh : GoStr) :
      Reachable ops kh t0 st → Reachable ops kh t0 (eraseRootHash ops st rh).2

/-! Base64 lemmas: every encoding decodes successfully. -/

theorem b64Char_ge (i : Nat) : 43 ≤ b64Char i := by
  unfold b64Char; split_ifs <;> omega

theorem b64Char_ne_61 (i : Nat) : b64Char i ≠ 61 := by
  unfold b64Char; split_ifs <;> omega

theorem b64Index_b64Char (i : Nat) : (b64Index (b64Char i)).isSome := by
  unfold b64Char b64Index
  split_ifs <;> simp_all <;> omega

theorem base64Encode_mem_ge (b : Bytes) : ∀ c ∈ base64Encode b, 43 ≤ c := by
  induction b using base64Encode.induct with
  | case1 => simp [base64Encode]
  | case2 b1 =>
      intro c hc
      simp only [base64Encode, List.mem_cons, List.not_mem_nil, or_false] at hc
      rcases hc with rfl | rfl | rfl | rfl <;> first | exact b64Char_ge _ | omega
  | case3 b1 b2 =>
      intro c hc
      simp only [base64Encode, List.mem_cons, List.not_mem_nil, or_false] at hc
      rcases hc with rfl | rfl | rfl | rfl <;> first | exact b64Char_ge _ | omega
  | case4 b1 b2 b3 rest ih =>
      intro c hc
      simp only [base64Encode, List.mem_cons] at hc
      rcases hc with rfl | rfl | rfl | rfl | hc
      · exact b64Char_ge _
      · exact b64Char_ge _
      · exact b64Char_ge _
      · exact b64Char_ge _
      · exact ih c hc

theorem base64Encode_filter (b : Bytes) :
    (base64Encode b).filter (fun c => c != 10 && c != 13) = base64Encode b := by
  apply List.filter_eq_self.mpr
  intro c hc
  have := base64Encode_mem_ge b c hc
  simp only [Bool.and_eq_true, bne_iff_ne, ne_eq]
  omega

theorem b64DecodeAux_encode (b : Bytes) : ∃ r, b64DecodeAux (base64Encode b) = .ok r := by
  induction b using base64Encode.induct with
  | case1 => exact ⟨[], rfl⟩
  | case2 b1 =>
      obtain ⟨v1, hv1⟩ := Option.isSome_iff_exists.mp (b64Index_b64Char (b1 / 4))
      obtain ⟨v2, hv2⟩ := Option.isSome_iff_exists.mp (b64Index_b64Char (b1 % 4 * 16))
      refine ⟨[v1 * 4 + v2 / 16], ?_⟩
      simp [base64Encode, b64DecodeAux, hv1, hv2]
  | case3 b1 b2 =>
      obtain ⟨v1, hv1⟩ := Option.isSome_iff_exists.mp (b64Index_b64Char (b1 / 4))
      obtain ⟨v2, hv2⟩ := Option.isSome_iff_exists.mp (b64Index_b64Char (b1 % 4 * 16 + b2 / 16))
      obtain ⟨v3, hv3⟩ := Option.isSome_iff_exists.mp (b64Index_b64Char (b2 % 16 * 4))
      refine ⟨[v1 * 4 + v2 / 16, v2 % 16 * 16 + v3 / 4], ?_⟩
      simp [base64Encode, b64DecodeAux, hv1, hv2, hv3, b64Char_ne_61]
  | case4 b1 b2 b3 rest ih =>
      obtain ⟨v1, hv1⟩ := Option.isSome_iff_exists.mp (b64Index_b64Char (b1 / 4))
      obtain ⟨v2, hv2⟩ := Option.isSome_iff_exists.mp (b64Index_b64Char (b1 % 4 * 16 + b2 / 16))
      obtain ⟨v3, hv3⟩ := Option.isSome_iff_exists.mp (b64Index_b64Char (b2 % 16 * 4 + b3 / 64))
      obtain ⟨v4, hv4⟩ := Option.isSome_iff_exists.mp (b64Index_b64Char (b3 % 64))
      obtain ⟨r, hr⟩ := ih
      refine ⟨(v1 * 4 + v2 / 16) :: (v2 % 16 * 16 + v3 / 4) :: (v3 % 4 * 64 + v4) :: r, ?_⟩
      simp [base64Encode, b64DecodeAux, hv1, hv2, hv3, hv4, b64Char_ne_61, hr]

theorem base64Decode_encode (b : Bytes) : ∃ r, base64Decode (base64Encode b) = .ok r := by
  unfold base64Decode
  rw [base64Encode_filter]
  exact b64DecodeAux_encode b

theorem base64Decode_hashToString (b : Bytes) : ∃ r, base64Decode (hashToString b) = .ok r :=
  base64Decode_encode b

/-! Index association list lemmas. -/

theorem alistLookup_appendSlot_self (idx : List (GoStr × List Nat)) (k : GoStr) (id : Nat) :
    alistLookup (alistAppendSlot idx k id) k = some ((alistLookup idx k).getD [] ++ [id]) := by
  induction idx with
  | nil => simp [alistAppendSlot, alistLookup]
  | cons p rest ih =>
      obtain ⟨a, l⟩ := p
      by_cases h : a = k
      · simp [alistAppendSlot, alistLookup, h]
      · simp [alistAppendSlot, alistLookup, h, ih]

theorem alistLookup_appendSlot_ne (idx : List (GoStr × List Nat)) (k k' : GoStr) (id : Nat)
    (hne : k' ≠ k) : alistLookup (alistAppendSlot idx k id) k' = alistLookup idx k' := by
  induction idx with
  | nil => simp [alistAppendSlot, alistLookup, Ne.symm hne]
  | cons p rest ih =>
      obtain ⟨a, l⟩ := p
      by_cases h : a = k
      · subst h
        simp [alistAppendSlot, alistLookup, Ne.symm hne]
      · simp [alistAppendSlot, alistLookup, h, ih]

theorem alistLookup_none_iff (idx : List (GoStr × List Nat)) (k : GoStr) :
    alistLookup idx k = none ↔ k ∉ idx.map (fun p => p.1) := by
  induction idx with
  | nil => simp [alistLookup]
  | cons p rest ih =>
      obtain ⟨a, l⟩ := p
      by_cases h : a = k
      · simp [alistLookup, h]
      · simp [alistLookup, h, ih, Ne.symm h]

theorem alistAppendSlot_keys (idx : List (GoStr × List Nat)) (k : GoStr) (id : Nat) :
    (alistAppendSlot idx k id).map (fun p => p.1) =
      if alistLookup idx k = none then idx.map (fun p => p.1) ++ [k]
      else idx.map (fun p => p.1) := by
  induction idx with
  | nil => simp [alistAppendSlot, alistLookup]
  | cons p rest ih =>
      obtain ⟨a, l⟩ := p
      by_cases h : a = k
      · simp [alistAppendSlot, alistLookup, h]
      · simp only [alistAppendSlot, h, if_false, List.map_cons, alistLookup, ih]
        by_cases h2 : alistLookup rest k = none <;> simp [h2]

theorem alistLookup_remove_self (idx : List (GoStr × List Nat)) (k : GoStr) :
    alistLookup (alistRemove idx k) k = none := by
  induction idx with
  | nil => simp [alistRemove, alistLookup]
  | cons p rest ih =>
      obtain ⟨a, l⟩ := p
      by_cases h : a = k
      · simp [alistRemove, h, ih]
      · simp [alistRemove, alistLookup, h, ih]

theorem alistLookup_remove_ne (idx : List (GoStr × List Nat)) (k k' : GoStr) (hne : k' ≠ k) :
    alistLookup (alistRemove idx k) k' = alistLookup idx k' := by
  induction idx with
  | nil => simp [alistRemove]
  | cons p rest ih =>
      obtain ⟨a, l⟩ := p
      by_cases h : a = k
      · subst h
        simp [alistRemove, alistLookup, Ne.symm hne, ih]
      · simp [alistRemove, alistLookup, h, ih]

theorem alistRemove_keys_sublist (idx : List (GoStr × List Nat)) (k : GoStr) :
    ((alistRemove idx k).map (fun p => p.1)).Sublist (idx.map (fun p => p.1)) := by
  induction idx with
  | nil => simp [alistRemove]
  | cons p rest ih =>
      obtain ⟨a, l⟩ := p
      by_cases h : a = k
      · simp only [alistRemove, h, if_true]
        exact ih.trans (List.sublist_cons_self _ _)
      · simp only [alistRemove, h, if_false, List.map_cons]
        exact ih.cons₂ _

/-! Sequence entry lemmas: successor handles, removal, last entries. -/

theorem elemNext_concat_self (l : List (Nat × Bytes)) (e : Nat × Bytes)
    (hn : e.1 ∉ l.map (fun x => x.1)) : elemNext (l ++ [e]) e.1 = none := by
  induction l with
  | nil => simp [elemNext]
  | cons a t ih =>
      simp only [List.map_cons, List.mem_cons, not_or] at hn
      cases t with
      | nil => simp [elemNext, Ne.symm hn.1]
      | cons b t' => simpa [elemNext, Ne.symm hn.1] using ih hn.2

theorem elemNext_isSome_of_ne_last (l : List (Nat × Bytes)) (id : Nat) (elast : Nat × Bytes)
    (hmem : id ∈ l.map (fun e => e.1)) (hlast : l.getLast? = some elast) (hne : id ≠ elast.1) :
    (elemNext l id).isSome := by
  induction l with
  | nil => simp at hmem
  | cons a t ih =>
      cases t with
      | nil =>
          simp only [List.map_cons, List.map_nil, List.mem_singleton] at hmem
          simp only [List.getLast?_singleton, Option.some.injEq] at hlast
          subst hlast
          exact absurd hmem hne
      | cons b t' =>
          by_cases h : a.1 = id
          · simp [elemNext, h]
          · have hmem' : id ∈ (b :: t').map (fun e => e.1) := by
              simpa [Ne.symm h] using hmem
            have hlast' : (b :: t').getLast? = some elast := by
              simpa [List.getLast?_cons_cons] using hlast
            simpa [elemNext, h] using ih hmem' hlast'

theorem getLast?_filter_keep (l : List (Nat × Bytes)) (p : Nat × Bytes → Bool)
    (e : Nat × Bytes) (hlast : l.getLast? = some e) (hp : p e = true) :
    (l.filter p).getLast? = some e := by
  have hrep : l.dropLast ++ [e] = l := List.dropLast_append_getLast? e hlast
  calc (l.filter p).getLast?
      = ((l.dropLast ++ [e]).filter p).getLast? := by rw [hrep]
    _ = (l.dropLast.filter p ++ [e]).getLast? := by simp [List.filter_append, hp]
    _ = some e := by simp

theorem foldl_historyRemove (occ : List Nat) (h : History) :
    occ.foldl historyRemove h =
      { h with entries := h.entries.filter (fun e => !(occ.contains e.1)) } := by
  induction occ generalizing h with
  | nil => simp
  | cons o rest ih =>
      have : (o :: rest).foldl historyRemove h = rest.foldl historyRemove (historyRemove h o) :=
        rfl
      rw [this, ih]
      simp only [historyRemove, List.filter_filter]
      congr 1
      apply List.filter_congr
      intro e _
      by_cases he : e.1 = o <;> simp [he, List.contains_cons]

/-! EraseRootHash loop lemmas. -/

theorem eraseLoop_error_of_mem (l : List (Nat × Bytes)) (occ : List Nat) (o : Nat)
    (hmem : o ∈ occ) (hnone : elemNext l o = none) :
    ∀ acc, eraseLoop l occ acc = .error () := by
  induction occ with
  | nil => simp at hmem
  | cons o' rest ih =>
      intro acc
      rcases List.mem_cons.mp hmem with rfl | hmem'
      · simp [eraseLoop, hnone]
      · cases hn : elemNext l o' with
        | none => simp [eraseLoop, hn]
        | some nxt => simp [eraseLoop, hn, ih hmem']

theorem eraseLoop_ok_forall (l : List (Nat × Bytes)) (occ : List Nat) (acc adj : List Bytes)
    (hok : eraseLoop l occ acc = .ok adj) : ∀ o ∈ occ, (elemNext l o).isSome := by
  induction occ generalizing acc with
  | nil => simp
  | cons o' rest ih =>
      intro o hmem
      cases hn : elemNext l o' with
      | none => simp [eraseLoop, hn] at hok
      | some nxt =>
          simp only [eraseLoop, hn] at hok
          rcases List.mem_cons.mp hmem with rfl | hmem'
          · simp [hn]
          · exact ih _ hok o hmem'

theorem eraseLoop_ok_of_forall (l : List (Nat × Bytes)) (occ : List Nat)
    (hall : ∀ o ∈ occ, (elemNext l o).isSome) :
    ∀ acc, ∃ adj, eraseLoop l occ acc = .ok adj := by
  induction occ with
  | nil => exact fun acc => ⟨acc, rfl⟩
  | cons o' rest ih =>
      intro acc
      obtain ⟨nxt, hn⟩ := Option.isSome_iff_exists.mp (hall o' (List.mem_cons_self o' rest))
      simp only [eraseLoop, hn]
      exact ih (fun o ho => hall o (List.mem_cons_of_mem _ ho)) _

/-! History tracker well-formedness invariant. -/

/-- Handles, in sequence order, of the entries whose encoded hash is `k`. -/
def idsWith (l : List (Nat × Bytes)) (k : GoStr) : List Nat :=
  (l.filter (fun e => hashToString e.2 == k)).map (fun e => e.1)

theorem mem_idsWith (l : List (Nat × Bytes)) (k : GoStr) (id : Nat) :
    id ∈ idsWith l k ↔ ∃ e ∈ l, e.1 = id ∧ hashToString e.2 = k := by
  simp only [idsWith, List.mem_map, List.mem_filter, beq_iff_eq]
  constructor
  · rintro ⟨e, ⟨he, hk⟩, hid⟩
    exact ⟨e, he, hid, hk⟩
  · rintro ⟨e, he, hid, hk⟩
    exact ⟨e, ⟨he, hk⟩, hid⟩

theorem idsWith_append (l : List (Nat × Bytes)) (e : Nat × Bytes) (k : GoStr) :
    idsWith (l ++ [e]) k =
      if hashToString e.2 = k then idsWith l k ++ [e.1] else idsWith l k := by
  by_cases h : hashToString e.2 = k <;> simp [idsWith, List.filter_append, h]

/-- Invariant tying the sequence and the index together: handles are unique
and fresh, index keys are unique, every slot holds exactly the handles of
the entries with its hash (in order) and is nonempty, every entry's hash has
a slot, and every index key is well-formed base64 text. -/
structure HistWF (h : History) : Prop where
  idsLt : ∀ e ∈ h.entries, e.1 < h.nextId
  idsNodup : (h.entries.map (fun e => e.1)).Nodup
  keysNodup : (h.index.map (fun p => p.1)).Nodup
  slots : ∀ k l, alistLookup h.index k = some l → l = idsWith h.entries k
  slotsNe : ∀ k l, alistLookup h.index k = some l → l ≠ []
  covered : ∀ e ∈ h.entries, (alistLookup h.index (hashToString e.2)).isSome
  keysDecodable : ∀ k l, alistLookup h.index k = some l → ∃ r, base64Decode k = .ok r

theorem histWF_new : HistWF newHistory := by
  refine ⟨?_, ?_, ?_, ?_, ?_, ?_, ?_⟩ <;> simp [newHistory, alistLookup]

theorem entries_fst_inj (h : History) (hw : HistWF h) {e e' : Nat × Bytes}
    (he : e ∈ h.entries) (he' : e' ∈ h.entries) (heq : e.1 = e'.1) : e = e' :=
  List.inj_on_of_nodup_map hw.idsNodup he he' heq

theorem idsWith_eq_nil_of_lookup_none (h : History) (hw : HistWF h) (k : GoStr)
    (hnone : alistLookup h.index k = none) : idsWith h.entries k = [] := by
  by_contra hne
  obtain ⟨id, hid⟩ := List.exists_mem_of_ne_nil _ hne
  obtain ⟨e, he, _, hk⟩ := (mem_idsWith _ _ _).mp hid
  have hc := hw.covered e he
  rw [hk, hnone] at hc
  simp at hc

theorem histWF_historyPut (h : History) (hw : HistWF h) (b : Bytes) :
    HistWF (historyPut h b).1 := by
  have hent : (historyPut h b).1.entries = h.entries ++ [(h.nextId, b)] := rfl
  have hidx : (historyPut h b).1.index = alistAppendSlot h.index (hashToString b) h.nextId :=
    rfl
  have hnid : (historyPut h b).1.nextId = h.nextId + 1 := rfl
  constructor
  · intro e he
    rw [hent] at he
    rw [hnid]
    rcases List.mem_append.mp he with h1 | h1
    · exact Nat.lt_succ_of_lt (hw.idsLt e h1)
    · simp only [List.mem_singleton] at h1
      subst h1
      exact Nat.lt_succ_self _
  · rw [hent]
    simp only [List.map_append, List.map_cons, List.map_nil]
    rw [List.nodup_append]
    refine ⟨hw.idsNodup, List.nodup_singleton _, ?_⟩
    intro x hx hx'
    simp only [List.mem_singleton] at hx'
    subst hx'
    obtain ⟨e, he, hfst⟩ := List.mem_map.mp hx
    exact absurd (hfst ▸ hw.idsLt e he) (Nat.lt_irrefl _)
  · rw [hidx, alistAppendSlot_keys]
    by_cases hk : alistLookup h.index (hashToString b) = none
    · rw [if_pos hk, List.nodup_append]
      refine ⟨hw.keysNodup, List.nodup_singleton _, ?_⟩
      intro x hx hx'
      simp only [List.mem_singleton] at hx'
      subst hx'
      exact absurd hx ((alistLookup_none_iff _ _).mp hk)
    · rw [if_neg hk]
      exact hw.keysNodup
  · intro k l hl
    rw [hidx] at hl
    rw [hent, idsWith_append]
    by_cases hk : k = hashToString b
    · subst hk
      rw [alistLookup_appendSlot_self] at hl
      rw [if_pos rfl]
      cases hlk : alistLookup h.index (hashToString b) with
      | none =>
          rw [hlk] at hl
          rw [idsWith_eq_nil_of_lookup_none h hw _ hlk]
          simpa using hl.symm
      | some l0 =>
          rw [hlk] at hl
          have := hw.slots _ l0 hlk
          simp only [Option.getD_some] at hl
          rw [← this]
          exact (Option.some.inj hl).symm
    · rw [alistLookup_appendSlot_ne _ _ _ _ hk] at hl
      rw [if_neg (fun hh => hk hh.symm)]
      exact hw.slots k l hl
  · intro k l hl
    rw [hidx] at hl
    by_cases hk : k = hashToString b
    · subst hk
      rw [alistLookup_appendSlot_self] at hl
      have := Option.some.inj hl
      subst this
      simp
    · rw [alistLookup_appendSlot_ne _ _ _ _ hk] at hl
      exact hw.slotsNe k l hl
  · intro e he
    rw [hent] at he
    rw [hidx]
    rcases List.mem_append.mp he with h1 | h1
    · by_cases hk : hashToString e.2 = hashToString b
      · rw [hk, alistLookup_appendSlot_self]
        simp
      · rw [alistLookup_appendSlot_ne _ _ _ _ hk]
        exact hw.covered e h1
    · simp only [List.mem_singleton] at h1
      subst h1
      rw [alistLookup_appendSlot_self]
      simp
  · intro k l hl
    rw [hidx] at hl
    by_cases hk : k = hashToString b
    · subst hk
      exact base64Decode_hashToString b
    · rw [alistLookup_appendSlot_ne _ _ _ _ hk] at hl
      exact hw.keysDecodable k l hl

theorem mem_idsWith_of_hash (h : History) (e : Nat × Bytes) (he : e ∈ h.entries) :
    e.1 ∈ idsWith h.entries (hashToString e.2) :=
  (mem_idsWith _ _ _).mpr ⟨e, he, rfl, rfl⟩

theorem not_contains_occ_iff (h : History) (hw : HistWF h) (rh : GoStr)
    (e : Nat × Bytes) (he : e ∈ h.entries) :
    ((idsWith h.entries rh).contains e.1 = false) ↔ hashToString e.2 ≠ rh := by
  have hmemiff : (idsWith h.entries rh).contains e.1 = true ↔ e.1 ∈ idsWith h.entries rh := by
    simp
  constructor
  · intro hc hhash
    have hm : e.1 ∈ idsWith h.entries rh := hhash ▸ mem_idsWith_of_hash h e he
    rw [← hmemiff] at hm
    rw [hc] at hm
    exact Bool.false_ne_true hm
  · intro hhash
    cases hc : (idsWith h.entries rh).contains e.1
    · rfl
    · exfalso
      obtain ⟨e', he', hfst, hk⟩ := (mem_idsWith _ _ _).mp (hmemiff.mp hc)
      have heq : e' = e := entries_fst_inj h hw he' he hfst
      subst heq
      exact hhash hk

theorem idsWith_filter_ne (h : History) (hw : HistWF h) (rh k : GoStr) (hne : k ≠ rh) :
    idsWith (h.entries.filter (fun e => !((idsWith h.entries rh).contains e.1))) k
      = idsWith h.entries k := by
  unfold idsWith
  rw [List.filter_filter]
  apply congrArg (List.map _)
  apply List.filter_congr
  intro e he
  by_cases hh : hashToString e.2 = k
  · have : (idsWith h.entries rh).contains e.1 = false :=
      (not_contains_occ_iff h hw rh e he).mpr (by rw [hh]; exact hne)
    simp [hh, this, idsWith] at this ⊢
    exact this
  · simp [hh]

theorem histWF_eraseSuccess (h : History) (hw : HistWF h) (rh : GoStr) (occ : List Nat)
    (hocc : alistLookup h.index rh = some occ) :
    HistWF (historyDelete (occ.foldl historyRemove h) rh) := by
  have hoccW : occ = idsWith h.entries rh := hw.slots rh occ hocc
  have hfold := foldl_historyRemove occ h
  have hent : (historyDelete (occ.foldl historyRemove h) rh).entries
      = h.entries.filter (fun e => !(occ.contains e.1)) := by
    rw [hfold]; rfl
  have hidx : (historyDelete (occ.foldl historyRemove h) rh).index
      = alistRemove h.index rh := by
    rw [hfold]; rfl
  have hnid : (historyDelete (occ.foldl historyRemove h) rh).nextId = h.nextId := by
    rw [hfold]; rfl
  constructor
  · intro e he
    rw [hent] at he
    rw [hnid]
    exact hw.idsLt e (List.mem_of_mem_filter he)
  · rw [hent]
    exact hw.idsNodup.sublist (List.Sublist.map _ (List.filter_sublist _))
  · rw [hidx]
    exact hw.keysNodup.sublist (alistRemove_keys_sublist _ _)
  · intro k l hl
    rw [hidx] at hl
    by_cases hk : k = rh
    · subst hk
      rw [alistLookup_remove_self] at hl
      exact absurd hl (by simp)
    · rw [alistLookup_remove_ne _ _ _ hk] at hl
      rw [hent, hoccW, idsWith_filter_ne h hw rh k hk]
      exact hw.slots k l hl
  · intro k l hl
    rw [hidx] at hl
    by_cases hk : k = rh
    · subst hk
      rw [alistLookup_remove_self] at hl
      exact absurd hl (by simp)
    · rw [alistLookup_remove_ne _ _ _ hk] at hl
      exact hw.slotsNe k l hl
  · intro e he
    rw [hent] at he
    rw [hidx]
    have hmem := List.mem_of_mem_filter he
    have hkeep : (occ.contains e.1) = false := by
      have := List.of_mem_filter he
      cases hc : occ.contains e.1
      · rfl
      · rw [hc] at this; simp at this
    have hne : hashToString e.2 ≠ rh :=
      (not_contains_occ_iff h hw rh e hmem).mp (by rw [← hoccW]; exact hkeep)
    rw [alistLookup_remove_ne _ _ _ hne]
    exact hw.covered e hmem
  · intro k l hl
    rw [hidx] at hl
    by_cases hk : k = rh
    · subst hk
      rw [alistLookup_remove_self] at hl
      exact absurd hl (by simp)
    · rw [alistLookup_remove_ne _ _ _ hk] at hl
      exact hw.keysDecodable k l hl

/-! Reachable states satisfy the history invariant and root tracking. -/

theorem ledgerPut_history {σ : Type} (ops : SMTOps σ) (kh : GoStr → Bytes)
    (st : LedgerState σ) (k v : GoStr) :
    (ledgerPut ops kh st k v).2.history = st.history ∨
      ∃ b t', ops.update st.tree [kh k] [stringToBytes v] = .ok (b, t') ∧
        (ledgerPut ops kh st k v).2.history = (historyPut st.history b).1 := by
  cases hu : ops.update st.tree [kh k] [stringToBytes v] with
  | error e => left; simp [ledgerPut, coerceKeyToHashLen, hu]
  | ok p =>
      obtain ⟨b, t'⟩ := p
      right
      exact ⟨b, t', rfl, by simp [ledgerPut, coerceKeyToHashLen, hu]⟩

theorem ledgerDelete_history {σ : Type} (ops : SMTOps σ) (kh : GoStr → Bytes)
    (st : LedgerState σ) (k : GoStr) :
    (ledgerDelete ops kh st k).2.history = st.history ∨
      ∃ b t', ops.delete st.tree (kh k) = .ok (b, t') ∧
        (ledgerDelete ops kh st k).2.history = (historyPut st.history b).1 := by
  cases hu : ops.delete st.tree (kh k) with
  | error e => left; simp [ledgerDelete, coerceKeyToHashLen, hu]
  | ok p =>
      obtain ⟨b, t'⟩ := p
      right
      exact ⟨b, t', rfl, by simp [ledgerDelete, coerceKeyToHashLen, hu]⟩

theorem historyGet_cons_lookup (h : History) (rh : GoStr) (o0 : Nat) (rest : List Nat)
    (hg : historyGet h rh = o0 :: rest) :
    alistLookup h.index rh = some (o0 :: rest) := by
  unfold historyGet at hg
  cases hlk : alistLookup h.index rh with
  | none => rw [hlk] at hg; simp at hg
  | some l => rw [hlk] at hg; simp only [Option.getD_some] at hg; rw [hg]

theorem eraseRootHash_cases {σ : Type} (ops : SMTOps σ) (st : LedgerState σ) (rh : GoStr) :
    (eraseRootHash ops st rh).2 = st ∨
      ∃ o0 rest adj t',
        historyGet st.history rh = o0 :: rest ∧
        eraseLoop st.history.entries (o0 :: rest) [] = .ok adj ∧
        ops.erase st.tree ((elemValue st.history.entries o0).getD []) adj = .ok t' ∧
        (eraseRootHash ops st rh).2 =
          { st with
            tree := t'
            history := historyDelete ((o0 :: rest).foldl historyRemove st.history) rh } := by
  cases hg : historyGet st.history rh with
  | nil =>
      left
      simp [eraseRootHash, hg]
  | cons o0 rest =>
      cases hl : eraseLoop st.history.entries (o0 :: rest) [] with
      | error e =>
          left
          simp [eraseRootHash, hg, hl]
      | ok adj =>
          cases he : ops.erase st.tree ((elemValue st.history.entries o0).getD []) adj with
          | error e =>
              left
              simp [eraseRootHash, hg, hl, he]
          | ok t' =>
              right
              refine ⟨o0, rest, adj, t', rfl, hl, he, ?_⟩
              simp [eraseRootHash, hg, hl, he]

theorem reachable_histWF {σ : Type} {ops : SMTOps σ} {kh : GoStr → Bytes} {t0 : σ}
    {st : LedgerState σ} (hr : Reachable ops kh t0 st) : HistWF st.history := by
  induction hr with
  | init => exact histWF_new
  | put st k v hr ih =>
      rcases ledgerPut_history ops kh st k v with hh | ⟨b, t', _, hh⟩
      · rw [hh]; exact ih
      · rw [hh]; exact histWF_historyPut _ ih b
  | del st k hr ih =>
      rcases ledgerDelete_history ops kh st k with hh | ⟨b, t', _, hh⟩
      · rw [hh]; exact ih
      · rw [hh]; exact histWF_historyPut _ ih b
  | erase st rh hr ih =>
      rcases eraseRootHash_cases ops st rh with hh | ⟨o0, rest, adj, t', hg, _, _, hh⟩
      · rw [hh]; exact ih
      · rw [hh]
        exact histWF_eraseSuccess _ ih rh _ (historyGet_cons_lookup _ _ _ _ hg)

/-- Root tracking: the tail entry of the history always holds the raw bytes
of the tree's current root. -/
def RootInv {σ : Type} (ops : SMTOps σ) (st : LedgerState σ) : Prop :=
  ∀ e, st.history.entries.getLast? = some e → ops.root st.tree = e.2

theorem ledgerPut_state {σ : Type} (ops : SMTOps σ) (kh : GoStr → Bytes)
    (st : LedgerState σ) (k v : GoStr) :
    ((ledgerPut ops kh st k v).2.tree = st.tree ∧
        (ledgerPut ops kh st k v).2.history = st.history) ∨
      ∃ b t', ops.update st.tree [kh k] [stringToBytes v] = .ok (b, t') ∧
        (ledgerPut ops kh st k v).2.tree = t' ∧
        (ledgerPut ops kh st k v).2.history = (historyPut st.history b).1 := by
  cases hu : ops.update st.tree [kh k] [stringToBytes v] with
  | error e =>
      left
      constructor <;> simp [ledgerPut, coerceKeyToHashLen, hu]
  | ok p =>
      obtain ⟨b, t'⟩ := p
      right
      refine ⟨b, t', rfl, ?_, ?_⟩ <;> simp [ledgerPut, coerceKeyToHashLen, hu]

theorem ledgerDelete_state {σ : Type} (ops : SMTOps σ) (kh : GoStr → Bytes)
    (st : LedgerState σ) (k : GoStr) :
    ((ledgerDelete ops kh st k).2.tree = st.tree ∧
        (ledgerDelete ops kh st k).2.history = st.history) ∨
      ∃ b t', ops.delete st.tree (kh k) = .ok (b, t') ∧
        (ledgerDelete ops kh st k).2.tree = t' ∧
        (ledgerDelete ops kh st k).2.history = (historyPut st.history b).1 := by
  cases hu : ops.delete st.tree (kh k) with
  | error e =>
      left
      constructor <;> simp [ledgerDelete, coerceKeyToHashLen, hu]
  | ok p =>
      obtain ⟨b, t'⟩ := p
      right
      refine ⟨b, t', rfl, ?_, ?_⟩ <;> simp [ledgerDelete, coerceKeyToHashLen, hu]

theorem reachable_rootInv {σ : Type} {ops : SMTOps σ} {kh : GoStr → Bytes} {t0 : σ}
    {st : LedgerState σ} (laws : SMTLaws ops) (hr : Reachable ops kh t0 st) :
    RootInv ops st := by
  induction hr with
  | init => intro e he; simp [initLedger, newHistory] at he
  | put st k v hr ih =>
      rcases ledgerPut_state ops kh st k v with ⟨ht, hh⟩ | ⟨b, t', hu, ht, hh⟩
      · intro e he; rw [hh] at he; rw [ht]; exact ih e he
      · intro e he
        rw [hh] at he
        have hent : (historyPut st.history b).1.entries
            = st.history.entries ++ [(st.history.nextId, b)] := rfl
        rw [hent, List.getLast?_concat] at he
        have heq := Option.some.inj he
        rw [ht, ← heq]
        exact laws.rootUpdate _ _ _ _ _ hu
  | del st k hr ih =>
      rcases ledgerDelete_state ops kh st k with ⟨ht, hh⟩ | ⟨b, t', hu, ht, hh⟩
      · intro e he; rw [hh] at he; rw [ht]; exact ih e he
      · intro e he
        rw [hh] at he
        have hent : (historyPut st.history b).1.entries
            = st.history.entries ++ [(st.history.nextId, b)] := rfl
        rw [hent, List.getLast?_concat] at he
        have heq := Option.some.inj he
        rw [ht, ← heq]
        exact laws.rootDelete _ _ _ _ hu
  | erase st rh hr ih =>
      rcases eraseRootHash_cases ops st rh with hh | ⟨o0, rest, adj, t', hg, hl, he, hh⟩
      · rw [hh]; exact ih
      · intro e hlast
        rw [hh] at hlast
        have hw : HistWF st.history := reachable_histWF hr
        have hent : (historyDelete ((o0 :: rest).foldl historyRemove st.history) rh).entries
            = st.history.entries.filter (fun e => !((o0 :: rest).contains e.1)) := by
          rw [foldl_historyRemove]; rfl
        simp only [hent] at hlast
        -- the tail entry survives the filter, so it is still the last entry
        have hall := eraseLoop_ok_forall _ _ _ _ hl
        -- every filtered-in entry keeps its place; recover the original tail
        cases hlast0 : st.history.entries.getLast? with
        | none =>
            rw [List.getLast?_eq_none_iff] at hlast0
            rw [hlast0] at hlast
            simp at hlast
        | some elast =>
            have hkeep : ((o0 :: rest).contains elast.1) = false := by
              cases hc : (o0 :: rest).contains elast.1
              · rfl
              · exfalso
                have hmem : elast.1 ∈ o0 :: rest := by
                  have : (o0 :: rest).contains elast.1 = true ↔ elast.1 ∈ o0 :: rest := by
                    simp
                  exact this.mp hc
                have hsome := hall _ hmem
                have hmemlast : elast ∈ st.history.entries := by
                  obtain ⟨hne, hget⟩ := List.mem_getLast?_eq_getLast hlast0
                  exact hget ▸ List.getLast_mem hne
                have hrep := List.dropLast_append_getLast? elast hlast0
                have hnotin : elast.1 ∉ st.history.entries.dropLast.map (fun x => x.1) := by
                  intro hin
                  have hnd := hw.idsNodup
                  rw [← hrep] at hnd
                  simp only [List.map_append, List.map_cons, List.map_nil,
                    List.nodup_append] at hnd
                  exact hnd.2.2 hin (by simp)
                have hnone : elemNext st.history.entries elast.1 = none := by
                  rw [← hrep]
                  exact elemNext_concat_self _ _ hnotin
                rw [hnone] at hsome
                simp at hsome
            have hlast' := getLast?_filter_keep st.history.entries
              (fun e => !((o0 :: rest).contains e.1)) elast hlast0 (by simpa using hkeep)
            rw [hlast'] at hlast
            have heq := Option.some.inj hlast
            subst heq
            have hroot : ops.root t' = ops.root st.tree := laws.rootErase _ _ _ _ he
            have hsttree : (eraseRootHash ops st rh).2.tree = t' := by rw [hh]
            rw [hh]
            simp only
            rw [hroot]
            exact ih elast hlast0

/-! Snapshot loop decomposition and trimming characterisation. -/

/-- Spec-side description of the snapshot pairs whose digest reverses
through the cache, with trimming applied as the loop does. -/
def reversedHits (kc : List (Bytes × List Bytes)) (pairs : List (Bytes × Bytes)) :
    List (GoStr × GoStr) :=
  pairs.filterMap (fun p => (cacheGet kc (toHash p.1)).map
    (fun truekey => (trimLeadingZeroes (truekey.headD []), trimLeadingZeroes p.2)))

/-- Spec-side description of the snapshot key digests that miss the cache. -/
def missKeys (kc : List (Bytes × List Bytes)) (keys : List Bytes) : List Bytes :=
  keys.filter (fun k => (cacheGet kc (toHash k)).isNone)

/-- Tree errors entering the aggregated error list, Go `multierror` base. -/
def treeErrList : Option Nat → List LErr
  | none => []
  | some e => [.backing e]

theorem gapLoop_spec (kc : List (Bytes × List Bytes)) (ks : List Bytes) :
    ∀ vs : List Bytes, ks.length = vs.length → ∀ m es,
      gapLoop kc ks vs m es =
        ((reversedHits kc (ks.zip vs)).foldl (fun m p => mapSet m p.1 p.2) m,
         es ++ (missKeys kc ks).map LErr.keyReversalMiss) := by
  induction ks with
  | nil => intro vs _ m es; simp [gapLoop, reversedHits, missKeys]
  | cons k ks ih =>
      intro vs hlen m es
      cases vs with
      | nil => simp at hlen
      | cons v vs' =>
          have hlen' : ks.length = vs'.length := by simpa using hlen
          cases hc : cacheGet kc (toHash k) with
          | some truekey =>
              have hstep : gapLoop kc (k :: ks) (v :: vs') m es
                  = gapLoop kc ks vs'
                      (mapSet m (trimLeadingZeroes (truekey.headD []))
                        (trimLeadingZeroes v)) es := by
                simp [gapLoop, hc]
              rw [hstep, ih vs' hlen']
              simp [reversedHits, missKeys, hc]
          | none =>
              have hstep : gapLoop kc (k :: ks) (v :: vs') m es
                  = gapLoop kc ks vs' m (es ++ [.keyReversalMiss k]) := by
                simp [gapLoop, hc]
              rw [hstep, ih vs' hlen']
              simp [reversedHits, missKeys, hc]
  
theorem gapLoop_errs_extend (kc : List (Bytes × List Bytes)) (ks : List Bytes) :
    ∀ vs m es, ∃ extra, (gapLoop kc ks vs m es).2 = es ++ extra := by
  induction ks with
  | nil => intro vs m es; exact ⟨[], by simp [gapLoop]⟩
  | cons k ks ih =>
      intro vs m es
      cases hc : cacheGet kc (toHash k) with
      | some truekey =>
          obtain ⟨extra, hex⟩ := ih vs.tail
            (mapSet m (trimLeadingZeroes (truekey.head?.getD []))
              (trimLeadingZeroes (vs.head?.getD []))) es
          exact ⟨extra, by simp [gapLoop, hc, hex]⟩
      | none =>
          obtain ⟨extra, hex⟩ := ih vs.tail m (es ++ [.keyReversalMiss k])
          exact ⟨.keyReversalMiss k :: extra, by simp [gapLoop, hc, hex]⟩

theorem trimLeadingZeroes_eq_dropWhile (b : Bytes) (hx : ∃ x ∈ b, x ≠ 0) :
    trimLeadingZeroes b = b.dropWhile (fun x => x == 0) := by
  induction b with
  | nil => simp at hx
  | cons a t ih =>
      cases t with
      | nil =>
          obtain ⟨x, hm, hne⟩ := hx
          simp only [List.mem_singleton] at hm
          subst hm
          have hb : (x == 0) = false := by simp [hne]
          simp [trimLeadingZeroes, List.dropWhile, hb]
      | cons a2 t2 =>
          by_cases ha : a = 0
          · subst ha
            have hx' : ∃ x ∈ a2 :: t2, x ≠ 0 := by
              obtain ⟨x, hm, hne⟩ := hx
              rcases List.mem_cons.mp hm with rfl | hmt
              · exact absurd rfl hne
              · exact ⟨x, hmt, hne⟩
            have htrim : trimLeadingZeroes (0 :: a2 :: t2) = trimLeadingZeroes (a2 :: t2) := by
              simp [trimLeadingZeroes]
            rw [htrim, ih hx']
            simp [List.dropWhile]
          · have hb : (a == 0) = false := by simp [ha]
            simp [trimLeadingZeroes, ha, List.dropWhile, hb]

theorem trimLeadingZeroes_all_zero (b : Bytes) (hne : b ≠ []) (hz : ∀ x ∈ b, x = 0) :
    trimLeadingZeroes b = [0] := by
  induction b with
  | nil => exact absurd rfl hne
  | cons a t ih =>
      have ha : a = 0 := hz a (List.mem_cons_self a t)
      subst ha
      cases t with
      | nil => simp [trimLeadingZeroes]
      | cons a2 t2 =>
          have htrim : trimLeadingZeroes (0 :: a2 :: t2) = trimLeadingZeroes (a2 :: t2) := by
            simp [trimLeadingZeroes]
          rw [htrim]
          exact ih (by simp) (fun x hx => hz x (List.mem_cons_of_mem _ hx))

theorem elemNext_getLast_none (h : History) (hw : HistWF h) (elast : Nat × Bytes)
    (hlast : h.entries.getLast? = some elast) : elemNext h.entries elast.1 = none := by
  have hrep := List.dropLast_append_getLast? elast hlast
  have hnotin : elast.1 ∉ h.entries.dropLast.map (fun x => x.1) := by
    intro hin
    have hnd := hw.idsNodup
    rw [← hrep] at hnd
    simp only [List.map_append, List.map_cons, List.map_nil, List.nodup_append] at hnd
    exact hnd.2.2 hin (by simp)
  rw [← hrep]
  exact elemNext_concat_self _ _ hnotin

theorem getLast_mem_of_getLast? (l : List (Nat × Bytes)) (e : Nat × Bytes)
    (hlast : l.getLast? = some e) : e ∈ l := by
  have hrep := List.dropLast_append_getLast? e hlast
  rw [← hrep]
  simp

/-! Concrete backing structures and ledger states used by the witnesses. -/

/-- Toy backing structure for witnesses: the tree state is its root, updates
and deletes extend it, erase keeps it. -/
def smtGrow : SMTOps Bytes where
  update t _ _ := .ok (t ++ [1], t ++ [1])
  delete t _ := .ok (t ++ [2], t ++ [2])
  getPreviousValue _ _ _ := ([], none)
  getAllPrevious _ _ := ([], [], none)
  erase t _ _ := .ok t
  root t := t

theorem smtGrow_laws : SMTLaws smtGrow := by
  refine ⟨?_, ?_, ?_⟩
  · intro t ks vs b t' h
    simp only [smtGrow, Except.ok.injEq, Prod.mk.injEq] at h
    simp [smtGrow, ← h.1, ← h.2]
  · intro t k b t' h
    simp only [smtGrow, Except.ok.injEq, Prod.mk.injEq] at h
    simp [smtGrow, ← h.1, ← h.2]
  · intro t tgt adj t' h
    simp only [smtGrow, Except.ok.injEq] at h
    simp [smtGrow, ← h]

/-- Variant whose erase operation always fails. -/
def smtFail : SMTOps Bytes :=
  { smtGrow with erase := fun _ _ _ => .error 7 }

theorem smtFail_laws : SMTLaws smtFail := by
  refine ⟨?_, ?_, ?_⟩
  · intro t ks vs b t' h
    simp only [smtFail, smtGrow, Except.ok.injEq, Prod.mk.injEq] at h
    simp [smtFail, smtGrow, ← h.1, ← h.2]
  · intro t k b t' h
    simp only [smtFail, smtGrow, Except.ok.injEq, Prod.mk.injEq] at h
    simp [smtFail, smtGrow, ← h.1, ← h.2]
  · intro t tgt adj t' h
    simp [smtFail] at h

/-- Variant whose previous-value reads return an all-zero byte slice. -/
def smtPrev : SMTOps Bytes :=
  { smtGrow with getPreviousValue := fun _ _ _ => ([0, 0], none) }

/-- Variant whose snapshot read returns two pairs together with an error. -/
def smtSnap : SMTOps Bytes :=
  { smtGrow with getAllPrevious := fun _ _ => ([[1, 2], [3, 4]], [[9], [0, 8]], some 5) }

/-- Concrete key digest for witnesses. -/
def kh0 (s : GoStr) : Bytes :=
  toHash s

/-- Freshly created ledger. -/
def ledger0 : LedgerState Bytes :=
  initLedger []

/-- Ledger after one successful Put. -/
def ledger1 : LedgerState Bytes :=
  (ledgerPut smtGrow kh0 ledger0 [107] [118]).2

/-- Ledger after two successful Puts against the failing-erase backing. -/
def ledger2 : LedgerState Bytes :=
  (ledgerPut smtFail kh0 (ledgerPut smtFail kh0 ledger0 [97] [49]).2 [98] [50]).2

/-- Ledger whose reversal cache holds only the digest of key `[1, 2]`. -/
def ledger9 : LedgerState Bytes :=
  { tree := [], history := newHistory, keyCache := [(toHash [1, 2], [[7, 7]])] }

/-! Claim theorems. -/

/-- C1 (amended): on every reachable ledger state with at least one recorded
mutation, calling EraseRootHash with the string returned by RootHash fails
with InvalidOperation ("cannot erase current root") and the returned state
is the input state: the history sequence, the history index and the backing
structure are all unchanged. -/
theorem c1_erase_current_root_invalid {σ : Type} (ops : SMTOps σ) (kh : GoStr → Bytes)
    (t0 : σ) (st : LedgerState σ) (laws : SMTLaws ops) (hr : Reachable ops kh t0 st)
    (hne : st.history.entries ≠ []) :
    eraseRootHash ops st (ledgerRootHash ops st) = (some .invalidOp, st) := by
  have hw := reachable_histWF hr
  have hri := reachable_rootInv laws hr
  obtain ⟨elast, hlast⟩ : ∃ e, st.history.entries.getLast? = some e := by
    cases hg : st.history.entries.getLast? with
    | none => exact absurd (List.getLast?_eq_none_iff.mp hg) hne
    | some e => exact ⟨e, rfl⟩
  have hroot : ops.root st.tree = elast.2 := hri elast hlast
  have hmem : elast ∈ st.history.entries := getLast_mem_of_getLast? _ _ hlast
  have hcov := hw.covered elast hmem
  obtain ⟨l, hl⟩ := Option.isSome_iff_exists.mp hcov
  have hslot := hw.slots _ _ hl
  have hlast1 : elast.1 ∈ l := by
    rw [hslot]
    exact mem_idsWith_of_hash _ _ hmem
  obtain ⟨o0, rest, hlcons⟩ : ∃ o0 rest, l = o0 :: rest := by
    cases l with
    | nil => simp at hlast1
    | cons a b => exact ⟨a, b, rfl⟩
  have hget : historyGet st.history (hashToString elast.2) = o0 :: rest := by
    unfold historyGet
    rw [hl, hlcons]
    rfl
  have hnone := elemNext_getLast_none st.history hw elast hlast
  have herr := eraseLoop_error_of_mem st.history.entries (o0 :: rest) elast.1
    (by rw [← hlcons]; exact hlast1) hnone []
  have hrh : ledgerRootHash ops st = hashToString elast.2 := by
    unfold ledgerRootHash
    rw [hroot]
  rw [hrh]
  simp [eraseRootHash, hget, herr]

/-- C1 counterexample: on the freshly created ledger the current root hash
is not yet present in the (empty) history, so EraseRootHash(RootHash())
fails with the NotFound error, not with InvalidOperation as claimed. -/
theorem c1_counterexample :
    eraseRootHash smtGrow ledger0 (ledgerRootHash smtGrow ledger0)
        = (some (.notFound []), ledger0) ∧
      LErr.notFound [] ≠ LErr.invalidOp := by
  constructor
  · rfl
  · decide

theorem c1_witness :
    SMTLaws smtGrow ∧ Reachable smtGrow kh0 [] ledger1 ∧
      ledger1.history.entries ≠ [] ∧
      eraseRootHash smtGrow ledger1 (ledgerRootHash smtGrow ledger1)
        = (some .invalidOp, ledger1) :=
  ⟨smtGrow_laws, Reachable.put _ _ _ Reachable.init, by decide,
    c1_erase_current_root_invalid smtGrow kh0 [] ledger1 smtGrow_laws
      (Reachable.put _ _ _ Reachable.init) (by decide)⟩

/-- C7: erasing a root hash that has no occurrence in the ledger's history
fails with NotFound and changes nothing: the returned state is the input
state. -/
theorem c7_absent_not_found {σ : Type} (ops : SMTOps σ) (st : LedgerState σ) (rh : GoStr)
    (hmiss : historyGet st.history rh = []) :
    eraseRootHash ops st rh = (some (.notFound rh), st) := by
  simp [eraseRootHash, hmiss]

theorem c7_witness :
    historyGet ledger0.history (hashToString [9]) = [] ∧
      eraseRootHash smtGrow ledger0 (hashToString [9])
        = (some (.notFound (hashToString [9])), ledger0) :=
  ⟨rfl, c7_absent_not_found smtGrow ledger0 (hashToString [9]) rfl⟩

/-- C8: Get returns exactly the result of GetPreviousValue at the current
root hash, and GetAll returns exactly the result of GetAllPrevious at the
current root hash (values, errors and state alike). -/
theorem c8_get_roothash_refinement {σ : Type} (ops : SMTOps σ) (kh : GoStr → Bytes)
    (st : LedgerState σ) (key : GoStr) :
    ledgerGet ops kh st key = ledgerGetPreviousValue ops kh st (ledgerRootHash ops st) key ∧
      ledgerGetAll ops st = ledgerGetAllPrevious ops st (ledgerRootHash ops st) :=
  ⟨rfl, rfl⟩

/-- C2: for every root hash present in history and different from the
current root hash of a reachable state, the erase loop computes the
bracketing roots successfully, and whenever the backing structure's Erase
call on them returns an error, EraseRootHash returns that error with the
ledger state (history sequence and index slot included) completely
unchanged. -/
theorem c2_backing_error_unchanged {σ : Type} (ops : SMTOps σ) (kh : GoStr → Bytes)
    (t0 : σ) (st : LedgerState σ) (rh : GoStr) (o0 : Nat) (rest : List Nat)
    (laws : SMTLaws ops) (hr : Reachable ops kh t0 st)
    (hocc : historyGet st.history rh = o0 :: rest)
    (hcur : rh ≠ ledgerRootHash ops st) :
    ∃ adj, eraseLoop st.history.entries (o0 :: rest) [] = .ok adj ∧
      ∀ e, ops.erase st.tree ((elemValue st.history.entries o0).getD []) adj = .error e →
        eraseRootHash ops st rh = (some (.backing e), st) := by
  have hw := reachable_histWF hr
  have hri := reachable_rootInv laws hr
  have hlk := historyGet_cons_lookup _ _ _ _ hocc
  have hslot := hw.slots _ _ hlk
  have ho0 : o0 ∈ idsWith st.history.entries rh := by
    rw [← hslot]
    simp
  obtain ⟨e0, he0, _, _⟩ := (mem_idsWith _ _ _).mp ho0
  have hne : st.history.entries ≠ [] := by
    intro h
    rw [h] at he0
    simp at he0
  obtain ⟨elast, hlast⟩ : ∃ e, st.history.entries.getLast? = some e := by
    cases hg : st.history.entries.getLast? with
    | none => exact absurd (List.getLast?_eq_none_iff.mp hg) hne
    | some e => exact ⟨e, rfl⟩
  have hroot : ops.root st.tree = elast.2 := hri elast hlast
  have hrhlast : hashToString elast.2 = ledgerRootHash ops st := by
    unfold ledgerRootHash
    rw [hroot]
  have hall : ∀ o ∈ o0 :: rest, (elemNext st.history.entries o).isSome := by
    intro o ho
    have hoid : o ∈ idsWith st.history.entries rh := by
      rw [← hslot]
      exact ho
    obtain ⟨e, he, hfst, hk⟩ := (mem_idsWith _ _ _).mp hoid
    have honm : o ∈ st.history.entries.map (fun x => x.1) :=
      hfst ▸ List.mem_map_of_mem _ he
    apply elemNext_isSome_of_ne_last _ _ elast honm hlast
    intro hoe
    have heq : e = elast :=
      entries_fst_inj _ hw he (getLast_mem_of_getLast? _ _ hlast) (by rw [hfst]; exact hoe)
    rw [heq] at hk
    exact hcur (hk ▸ hrhlast)
  obtain ⟨adj, hadj⟩ := eraseLoop_ok_of_forall _ _ hall []
  refine ⟨adj, hadj, ?_⟩
  intro e herase
  simp [eraseRootHash, hocc, hadj, herase]

theorem c2_witness :
    historyGet ledger2.history (hashToString [1]) = [0] ∧
      hashToString [1] ≠ ledgerRootHash smtFail ledger2 ∧
      (∃ adj, eraseLoop ledger2.history.entries [0] [] = .ok adj ∧
        ∀ e, smtFail.erase ledger2.tree ((elemValue ledger2.history.entries 0).getD []) adj
            = .error e →
          eraseRootHash smtFail ledger2 (hashToString [1]) = (some (.backing e), ledger2)) :=
  ⟨by decide, by decide,
    c2_backing_error_unchanged smtFail kh0 [] ledger2 (hashToString [1]) 0 []
      smtFail_laws (Reachable.put _ _ _ (Reachable.put _ _ _ Reachable.init))
      (by decide) (by decide)⟩

/-- C3: after every sequence of Put, Delete and EraseRootHash operations on
one ledger, the history index has a slot for a hash exactly when at least
one history entry with that hash remains in the sequence: no hash appears in
the index with zero tracked occurrences, and no entry survives the deletion
of its hash's index slot. -/
theorem c3_index_iff_entry {σ : Type} (ops : SMTOps σ) (kh : GoStr → Bytes) (t0 : σ)
    (st : LedgerState σ) (hash : GoStr) (hr : Reachable ops kh t0 st) :
    (alistLookup st.history.index hash).isSome ↔
      ∃ e ∈ st.history.entries, hashToString e.2 = hash := by
  have hw := reachable_histWF hr
  constructor
  · intro hs
    obtain ⟨l, hl⟩ := Option.isSome_iff_exists.mp hs
    have hslot := hw.slots _ _ hl
    have hlne := hw.slotsNe _ _ hl
    obtain ⟨id, hid⟩ := List.exists_mem_of_ne_nil _ hlne
    rw [hslot] at hid
    obtain ⟨e, he, _, hk⟩ := (mem_idsWith _ _ _).mp hid
    exact ⟨e, he, hk⟩
  · rintro ⟨e, he, hk⟩
    rw [← hk]
    exact hw.covered e he

theorem c3_witness :
    Reachable smtGrow kh0 [] ledger1 ∧
      ((alistLookup ledger1.history.index (hashToString [1])).isSome ↔
        ∃ e ∈ ledger1.history.entries, hashToString e.2 = hashToString [1]) :=
  ⟨Reachable.put _ _ _ Reachable.init,
    c3_index_iff_entry smtGrow kh0 [] ledger1 (hashToString [1])
      (Reachable.put _ _ _ Reachable.init)⟩

/-- C4 (amended): GetPreviousValue returns the backing structure's byte
sequence with `trimLeadingZeroes` applied and converted to a string; that
trimming removes all leading zero bytes whenever some byte is nonzero, but a
nonempty all-zero sequence is returned as a single zero byte, not as the
empty string (see the counterexample). -/
theorem c4_trim_behaviour {σ : Type} (ops : SMTOps σ) (kh : GoStr → Bytes)
    (st : LedgerState σ) (rh key : GoStr) (pb : Bytes)
    (hdec : base64Decode rh = .ok pb) :
    (ledgerGetPreviousValue ops kh st rh key).1.1
        = trimLeadingZeroes (ops.getPreviousValue st.tree pb (kh key)).1 ∧
      (∀ b : Bytes, (∃ x ∈ b, x ≠ 0) →
        trimLeadingZeroes b = b.dropWhile (fun x => x == 0)) ∧
      (∀ b : Bytes, b ≠ [] → (∀ x ∈ b, x = 0) → trimLeadingZeroes b = [0]) := by
  refine ⟨?_, trimLeadingZeroes_eq_dropWhile, trimLeadingZeroes_all_zero⟩
  simp [ledgerGetPreviousValue, hdec, coerceKeyToHashLen]

/-- C4 counterexample: with stored bytes `[0, 0]` the ledger returns the
one-byte string `[0]`, although removing all leading zero bytes would give
the empty string, so an all-zero stored value is not returned as empty. -/
theorem c4_counterexample :
    (ledgerGetPreviousValue smtPrev kh0 ledger0 [] []).1.1 = [0] ∧
      List.dropWhile (fun x => x == 0) ([0, 0] : Bytes) = [] ∧
      ([0] : Bytes) ≠ [] :=
  ⟨rfl, rfl, by decide⟩

theorem c4_witness :
    base64Decode [] = .ok [] ∧
      (ledgerGetPreviousValue smtPrev kh0 ledger0 [] []).1.1
          = trimLeadingZeroes (smtPrev.getPreviousValue ledger0.tree [] (kh0 [])).1 ∧
      trimLeadingZeroes [0, 5] = List.dropWhile (fun x => x == 0) [0, 5] ∧
      trimLeadingZeroes [0, 0] = [0] :=
  ⟨rfl, (c4_trim_behaviour smtPrev kh0 ledger0 [] [] [] rfl).1,
    (c4_trim_behaviour smtPrev kh0 ledger0 [] [] [] rfl).2.1 [0, 5] ⟨5, by decide, by decide⟩,
    (c4_trim_behaviour smtPrev kh0 ledger0 [] [] [] rfl).2.2 [0, 0] (by decide) (by decide)⟩

/-- C5: whenever the backing structure accepts the mutation, Put and Delete
each append exactly one new tail entry to the history sequence (even when
the resulting root bytes equal a previously recorded root), append its
handle at the end of that hash's index slot, never fail in the history
tracker, and return the base64 encoding of the raw root bytes. -/
theorem c5_put_delete_append {σ : Type} (ops : SMTOps σ) (kh : GoStr → Bytes)
    (st : LedgerState σ) (key value : GoStr) :
    (∀ b t', ops.update st.tree [kh key] [stringToBytes value] = .ok (b, t') →
      (ledgerPut ops kh st key value).1 = .ok (hashToString b) ∧
      (ledgerPut ops kh st key value).2.history.entries
        = st.history.entries ++ [(st.history.nextId, b)] ∧
      alistLookup (ledgerPut ops kh st key value).2.history.index (hashToString b)
        = some ((alistLookup st.history.index (hashToString b)).getD []
            ++ [st.history.nextId])) ∧
    (∀ b t', ops.delete st.tree (kh key) = .ok (b, t') →
      (ledgerDelete ops kh st key).1 = .ok (hashToString b) ∧
      (ledgerDelete ops kh st key).2.history.entries
        = st.history.entries ++ [(st.history.nextId, b)] ∧
      alistLookup (ledgerDelete ops kh st key).2.history.index (hashToString b)
        = some ((alistLookup st.history.index (hashToString b)).getD []
            ++ [st.history.nextId])) := by
  constructor
  · intro b t' hu
    have hidx : (ledgerPut ops kh st key value).2.history.index
        = alistAppendSlot st.history.index (hashToString b) st.history.nextId := by
      simp [ledgerPut, coerceKeyToHashLen, hu, historyPut]
    refine ⟨?_, ?_, ?_⟩
    · simp [ledgerPut, coerceKeyToHashLen, hu, historyPut]
    · simp [ledgerPut, coerceKeyToHashLen, hu, historyPut]
    · rw [hidx, alistLookup_appendSlot_self]
  · intro b t' hu
    have hidx : (ledgerDelete ops kh st key).2.history.index
        = alistAppendSlot st.history.index (hashToString b) st.history.nextId := by
      simp [ledgerDelete, coerceKeyToHashLen, hu, historyPut]
    refine ⟨?_, ?_, ?_⟩
    · simp [ledgerDelete, coerceKeyToHashLen, hu, historyPut]
    · simp [ledgerDelete, coerceKeyToHashLen, hu, historyPut]
    · rw [hidx, alistLookup_appendSlot_self]

theorem c5_witness :
    smtGrow.update ledger0.tree [kh0 [5]] [stringToBytes [6]] = .ok ([1], [1]) ∧
      (ledgerPut smtGrow kh0 ledger0 [5] [6]).1 = .ok (hashToString [1]) ∧
      (ledgerPut smtGrow kh0 ledger0 [5] [6]).2.history.entries = [(0, [1])] ∧
      smtGrow.delete ledger0.tree (kh0 [5]) = .ok ([2], [2]) ∧
      (ledgerDelete smtGrow kh0 ledger0 [5]).1 = .ok (hashToString [2]) := by
  refine ⟨rfl, ?_, ?_, rfl, ?_⟩
  · exact ((c5_put_delete_append smtGrow kh0 ledger0 [5] [6]).1 [1] [1] rfl).1
  · have hent := ((c5_put_delete_append smtGrow kh0 ledger0 [5] [6]).1 [1] [1] rfl).2.1
    simpa [ledger0, initLedger, newHistory] using hent
  · exact ((c5_put_delete_append smtGrow kh0 ledger0 [5] [6]).2 [2] [2] rfl).1

/-- C6 (amended): a string that is not valid base64 makes GetPreviousValue
and GetAllPrevious fail with the decode error, the state unchanged; but
EraseRootHash never decodes its argument, so on any reachable state it fails
with NotFound instead, because malformed text can never equal a stored
(valid base64) index key. -/
theorem c6_malformed_input {σ : Type} (ops : SMTOps σ) (kh : GoStr → Bytes) (t0 : σ)
    (st : LedgerState σ) (rh key : GoStr) (hdec : base64Decode rh = .error ()) :
    ledgerGetPreviousValue ops kh st rh key = (([], some .decodeErr), st) ∧
      ledgerGetAllPrevious ops st rh = ((none, [.decodeErr]), st) ∧
      (Reachable ops kh t0 st → eraseRootHash ops st rh = (some (.notFound rh), st)) := by
  refine ⟨?_, ?_, ?_⟩
  · simp [ledgerGetPreviousValue, hdec]
  · simp [ledgerGetAllPrevious, hdec]
  · intro hr
    have hw := reachable_histWF hr
    have hmiss : historyGet st.history rh = [] := by
      unfold historyGet
      cases hlk : alistLookup st.history.index rh with
      | none => rfl
      | some l =>
          obtain ⟨r, hrk⟩ := hw.keysDecodable _ _ hlk
          rw [hdec] at hrk
          exact absurd hrk (by simp)
    simp [eraseRootHash, hmiss]

/-- C6 counterexample: the string `[33]` (an exclamation mark) fails base64
decoding, yet EraseRootHash on it returns the NotFound error, not a decode
error. -/
theorem c6_counterexample :
    base64Decode [33] = .error () ∧
      (eraseRootHash smtGrow ledger0 [33]).1 = some (.notFound [33]) ∧
      LErr.notFound [33] ≠ LErr.decodeErr :=
  ⟨rfl, rfl, by decide⟩

theorem c6_witness :
    base64Decode [33] = .error () ∧
      ledgerGetPreviousValue smtGrow kh0 ledger0 [33] [] = (([], some .decodeErr), ledger0) ∧
      ledgerGetAllPrevious smtGrow ledger0 [33] = ((none, [.decodeErr]), ledger0) ∧
      eraseRootHash smtGrow ledger0 [33] = (some (.notFound [33]), ledger0) :=
  ⟨rfl, (c6_malformed_input smtGrow kh0 [] ledger0 [33] [] rfl).1,
    (c6_malformed_input smtGrow kh0 [] ledger0 [33] [] rfl).2.1,
    (c6_malformed_input smtGrow kh0 [] ledger0 [33] [] rfl).2.2 Reachable.init⟩

/-- C9: during GetAllPrevious, every key digest returned by the backing
structure that misses the key reversal cache has its pair omitted from the
returned map and contributes exactly one aggregated error naming that digest
(after any backing error), while every pair whose digest reverses is still
inserted; the map is always produced, so a reversal miss never fails the
whole read. -/
theorem c9_reversal_miss_soft {σ : Type} (ops : SMTOps σ) (st : LedgerState σ)
    (rh : GoStr) (pb : Bytes) (keys values : List Bytes) (treeErr : Option Nat)
    (hdec : base64Decode rh = .ok pb)
    (hsnap : ops.getAllPrevious st.tree pb = (keys, values, treeErr))
    (hlen : keys.length = values.length) :
    ledgerGetAllPrevious ops st rh =
      ((some ((reversedHits st.keyCache (keys.zip values)).foldl
            (fun m p => mapSet m p.1 p.2) (fun _ => none)),
        treeErrList treeErr ++ (missKeys st.keyCache keys).map LErr.keyReversalMiss), st) := by
  cases treeErr with
  | none =>
      simp only [ledgerGetAllPrevious, hdec, hsnap]
      rw [gapLoop_spec st.keyCache keys values hlen]
      rfl
  | some e =>
      simp only [ledgerGetAllPrevious, hdec, hsnap]
      rw [gapLoop_spec st.keyCache keys values hlen]
      rfl

theorem c9_witness :
    base64Decode [] = .ok [] ∧
      smtSnap.getAllPrevious ledger9.tree [] = ([[1, 2], [3, 4]], [[9], [0, 8]], some 5) ∧
      ledgerGetAllPrevious smtSnap ledger9 [] =
        ((some ((reversedHits ledger9.keyCache ([[1, 2], [3, 4]].zip [[9], [0, 8]])).foldl
              (fun m p => mapSet m p.1 p.2) (fun _ => none)),
          treeErrList (some 5) ++ (missKeys ledger9.keyCache [[1, 2], [3, 4]]).map
            LErr.keyReversalMiss), ledger9) :=
  ⟨rfl, rfl,
    c9_reversal_miss_soft smtSnap ledger9 [] [] [[1, 2], [3, 4]] [[9], [0, 8]]
      (some 5) rfl rfl rfl⟩

/-- C10: when the root hash decodes but the backing structure's snapshot
call returns an error, GetAllPrevious still returns a map (not the nil map
of the decode-failure path) built by the reversal loop from the keys and
values that accompanied the error, and the backing error is included in the
returned aggregated error list. -/
theorem c10_snapshot_error_keeps_map {σ : Type} (ops : SMTOps σ) (st : LedgerState σ)
    (rh : GoStr) (pb : Bytes) (keys values : List Bytes) (e : Nat)
    (hdec : base64Decode rh = .ok pb)
    (hsnap : ops.getAllPrevious st.tree pb = (keys, values, some e)) :
    ∃ errs, ledgerGetAllPrevious ops st rh =
        ((some (gapLoop st.keyCache keys values (fun _ => none) [.backing e]).1, errs), st) ∧
      LErr.backing e ∈ errs := by
  obtain ⟨extra, hex⟩ :=
    gapLoop_errs_extend st.keyCache keys values (fun _ => none) [.backing e]
  refine ⟨(gapLoop st.keyCache keys values (fun _ => none) [.backing e]).2, ?_, ?_⟩
  · simp only [ledgerGetAllPrevious, hdec, hsnap]
  · rw [hex]
    simp

theorem c10_witness :
    base64Decode [] = .ok [] ∧
      smtSnap.getAllPrevious ledger9.tree [] = ([[1, 2], [3, 4]], [[9], [0, 8]], some 5) ∧
      ∃ errs, ledgerGetAllPrevious smtSnap ledger9 [] =
          ((some (gapLoop ledger9.keyCache [[1, 2], [3, 4]] [[9], [0, 8]]
              (fun _ => none) [.backing 5]).1, errs), ledger9) ∧
        LErr.backing 5 ∈ errs :=
  ⟨rfl, rfl,
    c10_snapshot_error_keeps_map smtSnap ledger9 [] [] [[1, 2], [3, 4]] [[9], [0, 8]] 5 rfl rfl⟩
